import Mathlib

/-!
Verification of the silverbullet-rs virtual-filesystem core: the layered
(union) overlay engine from `silverbullet/src/fs/layer.rs` (and its twin in
`core/src/fs/layer.rs`), the error taxonomy and HTTP status mapping from
`core/src/fs.rs`, the object-storage adapter's `delete` from
`core/src/fs/opendal.rs`, and the in-repo `MemoryFs` reference backend from
the test module of `silverbullet/src/fs/layer.rs`.

Streams are modelled as finite lists of chunks, each chunk either a byte
list or an I/O error, matching `Stream = BoxStream<Result<Bytes, io::Error>>`.
The `HashMap<String, FileMeta>` used by the overlay `list` is modelled as an
association list keyed by `FileMeta.name` (`insert` replaces the value of an
existing key, otherwise appends); Rust's stable `sort_by` over the byte-wise
string order is modelled by insertion sort over `strLe`.
-/

namespace SB

/-- Byte content of one stream chunk (`Bytes` in the source). -/
abbrev Bytes := List Nat

/-- An I/O failure inside a stream (`std::io::Error`). -/
structure IoError where
  msg : String
deriving DecidableEq, Repr

/-- A stream: a finite sequence of chunks, each a byte chunk or an I/O
failure (`Result<Bytes, io::Error>` items). -/
abbrev Stream := List (Except IoError Bytes)

/-- Decidable equality for `Except`, so concrete runs of the model can be
checked by `decide`. -/
instance exceptDecEq {ε α : Type} [DecidableEq ε] [DecidableEq α] :
    DecidableEq (Except ε α) := fun x y =>
  match x, y with
  | .ok a, .ok b =>
    if h : a = b then isTrue (by rw [h])
    else isFalse (fun hh => by cases hh; exact h rfl)
  | .ok _, .error _ => isFalse (fun hh => by cases hh)
  | .error _, .ok _ => isFalse (fun hh => by cases hh)
  | .error a, .error b =>
    if h : a = b then isTrue (by rw [h])
    else isFalse (fun hh => by cases hh; exact h rfl)

/-- The error taxonomy of `core/src/fs.rs` (`enum Error`): `NotFound`,
`Io`, `PermissionDenied`, `Other`.  Payloads are modelled as strings. -/
inductive Error where
  | NotFound (src : String)
  | Io (e : IoError)
  | PermissionDenied (src : String)
  | Other (src : String)
deriving DecidableEq, Repr

/-- Normalized file descriptor (`struct FileMeta` in `core/src/fs.rs`). -/
structure FileMeta where
  name : String
  created : Nat
  perm : String
  content_type : String
  last_modified : Nat
  size : Nat
deriving DecidableEq, Repr

instance : Inhabited FileMeta := ⟨⟨"", 0, "", "", 0, 0⟩⟩

/-- Caller-supplied write intent (`struct IncomingFileMeta`), all fields
optional. -/
structure IncomingFileMeta where
  created : Option Nat
  perm : Option String
  content_type : Option String
  last_modified : Option Nat
  size : Option Nat
deriving DecidableEq, Repr

/-- The default `IncomingFileMeta` (`IncomingFileMeta::default()`). -/
def IncomingFileMeta.default : IncomingFileMeta :=
  ⟨none, none, none, none, none⟩

/-- Byte-wise lexicographic `≤` on character lists, the order underlying
Rust's `String::cmp` (UTF-8 byte order coincides with code-point order). -/
def charsLe : List Char → List Char → Bool
  | [], _ => true
  | _ :: _, [] => false
  | x :: xs, y :: ys =>
    if x.toNat < y.toNat then true
    else if y.toNat < x.toNat then false
    else charsLe xs ys

/-- String `≤` in the byte-wise order used by `a.name.cmp(&b.name)`. -/
def strLe (a b : String) : Bool := charsLe a.data b.data

/-- A read-only filesystem source (`trait ReadOnlyFilesystem`): the
observable behaviour of one immutable layer. -/
structure ReadOnlyFilesystem where
  list : Except Error (List FileMeta)
  get : String → Except Error (Stream × FileMeta)
  meta : String → Except Error FileMeta

/-- A read-write filesystem over an explicit state type σ
(`trait ReadOnlyFilesystem + WritableFilesystem`); `put` returns the new
state alongside the resulting `FileMeta`, `delete` returns the new state. -/
structure ReadWriteFilesystem (σ : Type) where
  list : σ → Except Error (List FileMeta)
  get : σ → String → Except Error (Stream × FileMeta)
  meta : σ → String → Except Error FileMeta
  put : σ → String → Stream → IncomingFileMeta → Except Error (FileMeta × σ)
  delete : σ → String → Except Error σ

/-- The layered filesystem (`struct Filesystem` in `fs/layer.rs`): an
ordered list of read-only layers (index order = order added via
`Builder::layer`) over one writable root. -/
structure Filesystem (σ : Type) where
  layers : List ReadOnlyFilesystem
  root : ReadWriteFilesystem σ

/-- Model of `HashMap::insert(file.name.clone(), file)` on a map keyed by
`name`: replace the entry with the same name, otherwise append. -/
def hmInsert (m : List FileMeta) (f : FileMeta) : List FileMeta :=
  if m.any (fun g => g.name = f.name) then
    m.map (fun g => if g.name = f.name then f else g)
  else
    m ++ [f]

/-- Model of `if let Ok(files) = source.list() { for file in files { insert } }`:
a failing source contributes nothing. -/
def insertAll (m : List FileMeta) (r : Except Error (List FileMeta)) :
    List FileMeta :=
  match r with
  | .ok files => files.foldl hmInsert m
  | .error _ => m

/-- The merge loop of `Filesystem::list`: insert the root's files first,
then each layer's files iterating the layer list in reverse
(`self.layers.iter().rev()`). -/
def mergeLists (rootR : Except Error (List FileMeta))
    (layerRs : List (Except Error (List FileMeta))) : List FileMeta :=
  layerRs.reverse.foldl insertAll (insertAll [] rootR)

/-- Comparison `a.name.cmp(&b.name) != Greater` used by the overlay
`sort_by`. -/
def nameLe (a b : FileMeta) : Prop := strLe a.name b.name = true

instance nameLeDec : DecidableRel nameLe :=
  fun a b => instDecidableEqBool (strLe a.name b.name) true

/-- Model of `files.sort_by(|a, b| a.name.cmp(&b.name))` (a stable
comparison sort; on name-distinct inputs any comparison sort agrees). -/
def sortByName (l : List FileMeta) : List FileMeta :=
  l.insertionSort nameLe

/-- `Filesystem::list` of `silverbullet/src/fs/layer.rs`: merge root and
layers into a name-keyed map, collect the values, sort by name. -/
def Filesystem.list {σ : Type} (fs : Filesystem σ) (s : σ) :
    Except Error (List FileMeta) :=
  .ok (sortByName (mergeLists (fs.root.list s) (fs.layers.map (fun l => l.list))))

/-- The scan `for layer in layers.iter().rev() { if let Ok(r) = ... }`:
return the first successful attempt, otherwise the fallback. -/
def firstOk {α : Type} : List (Except Error α) → Except Error α → Except Error α
  | [], fb => fb
  | a :: rest, fb =>
    match a with
    | .ok r => .ok r
    | .error _ => firstOk rest fb

/-- `Filesystem::get`: try each layer from last-added to first-added,
fall back to the root. -/
def Filesystem.get {σ : Type} (fs : Filesystem σ) (s : σ) (path : String) :
    Except Error (Stream × FileMeta) :=
  firstOk (fs.layers.reverse.map (fun l => l.get path)) (fs.root.get s path)

/-- `Filesystem::meta`: same precedence scan as `get`. -/
def Filesystem.meta {σ : Type} (fs : Filesystem σ) (s : σ) (path : String) :
    Except Error FileMeta :=
  firstOk (fs.layers.reverse.map (fun l => l.meta path)) (fs.root.meta s path)

/-- `Filesystem::put`: dispatch directly to the root. -/
def Filesystem.put {σ : Type} (fs : Filesystem σ) (s : σ) (path : String)
    (data : Stream) (im : IncomingFileMeta) : Except Error (FileMeta × σ) :=
  fs.root.put s path data im

/-- `Filesystem::delete`: dispatch directly to the root. -/
def Filesystem.delete {σ : Type} (fs : Filesystem σ) (s : σ) (path : String) :
    Except Error σ :=
  fs.root.delete s path

/-- State of the in-memory test backend `MemoryFs`:
`HashMap<String, (Bytes, FileMeta)>` as an association list. -/
abbrev MemState := List (String × (Bytes × FileMeta))

/-- `files.get(path)` on the `MemoryFs` map. -/
def memFind (files : MemState) (path : String) : Option (Bytes × FileMeta) :=
  (files.find? (fun kv => kv.1 = path)).map (fun kv => kv.2)

/-- `files.insert(path, v)` on the `MemoryFs` map: replace or append. -/
def memInsert (files : MemState) (path : String) (v : Bytes × FileMeta) :
    MemState :=
  if files.any (fun kv => kv.1 = path) then
    files.map (fun kv => if kv.1 = path then (path, v) else kv)
  else
    files ++ [(path, v)]

/-- `files.remove(path)` on the `MemoryFs` map. -/
def memRemove (files : MemState) (path : String) : MemState :=
  files.filter (fun kv => ¬ kv.1 = path)

/-- `MemoryFs::list`: the metadata of every stored file. -/
def MemoryFs.list (files : MemState) : Except Error (List FileMeta) :=
  .ok (files.map (fun kv => kv.2.2))

/-- `MemoryFs::get`: a one-chunk stream of the stored bytes plus the stored
metadata, or `NotFound`. -/
def MemoryFs.get (files : MemState) (path : String) :
    Except Error (Stream × FileMeta) :=
  match memFind files path with
  | some (data, fm) => .ok ([Except.ok data], fm)
  | none => .error (Error.NotFound path)

/-- `MemoryFs::meta`: the stored metadata, or `NotFound`. -/
def MemoryFs.meta (files : MemState) (path : String) : Except Error FileMeta :=
  match memFind files path with
  | some (_, fm) => .ok fm
  | none => .error (Error.NotFound path)

/-- The `try_fold` in `MemoryFs::put`: concatenate the chunks, aborting
with `Error::Io` at the first failed chunk. -/
def tryFoldBytes (acc : Bytes) : Stream → Except Error Bytes
  | [] => .ok acc
  | Except.ok chunk :: rest => tryFoldBytes (acc ++ chunk) rest
  | Except.error e :: _ => .error (Error.Io e)

/-- `MemoryFs::put`: drain the stream, build the resulting `FileMeta`
(defaults `0`, "rw", "text/plain", `0`; size = byte length), store it. -/
def MemoryFs.put (files : MemState) (path : String) (data : Stream)
    (im : IncomingFileMeta) : Except Error (FileMeta × MemState) :=
  match tryFoldBytes [] data with
  | .error e => .error e
  | .ok bytes =>
    let fm : FileMeta :=
      { name := path
        created := im.created.getD 0
        perm := im.perm.getD "rw"
        content_type := im.content_type.getD "text/plain"
        last_modified := im.last_modified.getD 0
        size := bytes.length }
    .ok (fm, memInsert files path (bytes, fm))

/-- `MemoryFs::delete`: remove the entry, `NotFound` when absent. -/
def MemoryFs.delete (files : MemState) (path : String) : Except Error MemState :=
  match memFind files path with
  | some _ => .ok (memRemove files path)
  | none => .error (Error.NotFound path)

/-- The `MemoryFs` backend bundled as a `ReadWriteFilesystem` over
`MemState`. -/
def memoryFs : ReadWriteFilesystem MemState :=
  { list := MemoryFs.list
    get := MemoryFs.get
    meta := MemoryFs.meta
    put := MemoryFs.put
    delete := MemoryFs.delete }

/-- A fixed `MemoryFs` snapshot viewed as a read-only layer. -/
def memLayer (files : MemState) : ReadOnlyFilesystem :=
  { list := MemoryFs.list files
    get := MemoryFs.get files
    meta := MemoryFs.meta files }

/-- Error kinds of the external `opendal` crate that the adapter
distinguishes (`opendal::ErrorKind`). -/
inductive OpendalKind where
  | NotFound
  | PermissionDenied
  | OtherKind
deriving DecidableEq, Repr

/-- An `opendal::Error`: a kind plus a message. -/
structure OpendalError where
  kind : OpendalKind
  msg : String
deriving DecidableEq, Repr

/-- The `From<opendal::Error> for Error` conversion in
`core/src/fs/opendal.rs`: `NotFound ↦ NotFound`, `PermissionDenied ↦
PermissionDenied`, everything else `↦ Other`. -/
def opendalInto (e : OpendalError) : Error :=
  match e.kind with
  | .NotFound => Error.NotFound e.msg
  | .PermissionDenied => Error.PermissionDenied e.msg
  | .OtherKind => Error.Other e.msg

/-- Abstract model of the external `opendal::Operator`: the outcome of
`stat` and `delete` per path. -/
structure OpendalOp where
  stat : String → Except OpendalError Unit
  del : String → Except OpendalError Unit

/-- `Filesystem::delete` of the opendal adapter
(`core/src/fs/opendal.rs`): stat first (so an absent path yields the
stat's `NotFound`), then delete; each `?` converts via `opendalInto`. -/
def opendalDelete (op : OpendalOp) (path : String) : Except Error Unit :=
  match op.stat path with
  | .error e => .error (opendalInto e)
  | .ok _ =>
    match op.del path with
    | .error e => .error (opendalInto e)
    | .ok _ => .ok ()

/-- The `From<Error> for StatusCode` mapping in `core/src/fs.rs`:
`NotFound ↦ 404`, `PermissionDenied ↦ 403`, `_ ↦ 500`. -/
def statusCode : Error → Nat
  | .NotFound _ => 404
  | .PermissionDenied _ => 403
  | _ => 500

/-- Replace a failed listing by a successful empty one: what the overlay
`list` effectively does to every failing source. -/
def okOrEmpty (r : Except Error (List FileMeta)) : Except Error (List FileMeta) :=
  match r with
  | .ok files => .ok files
  | .error _ => .ok []

/-- Concatenation of the byte chunks of a stream (failed chunks carry no
bytes). -/
def streamBytes : Stream → Bytes
  | [] => []
  | Except.ok chunk :: rest => chunk ++ streamBytes rest
  | Except.error _ :: rest => streamBytes rest

/-- Modelled from the spec: the writable contract of §4.2 — a successful
`put` persists the stream's bytes so that `get` on the same path returns
exactly those bytes with `size` equal to their length.  The root supplied
to the overlay engine is an arbitrary backend; the spec makes this its
obligation. -/
def RootPutGet {σ : Type} (root : ReadWriteFilesystem σ) : Prop :=
  ∀ s path data im fm s', root.put s path data im = .ok (fm, s') →
    ∃ str fm2, root.get s' path = .ok (str, fm2) ∧
      streamBytes str = streamBytes data ∧
      fm2.size = (streamBytes data).length

/-- Shorthand for a text-file descriptor used by the concrete scenarios. -/
def mkMeta (name : String) (size : Nat) : FileMeta :=
  ⟨name, 0, "ro", "text/plain", 0, size⟩

/-- Metadata of `a.txt` as held by the first-added layer (size 1). -/
def fmSizeOne : FileMeta := mkMeta "a.txt" 1

/-- Metadata of `a.txt` as held by the second-added layer (size 2). -/
def fmSizeTwo : FileMeta := mkMeta "a.txt" 2

/-- First-added layer: holds `a.txt` with one byte. -/
def firstLayerSt : MemState := [("a.txt", ([0], fmSizeOne))]

/-- Second-added (highest-priority) layer: holds `a.txt` with two bytes. -/
def secondLayerSt : MemState := [("a.txt", ([0, 0], fmSizeTwo))]

/-- Two layers that both hold `a.txt`, over an empty memory root. -/
def fsLayerPair : Filesystem MemState :=
  ⟨[memLayer firstLayerSt, memLayer secondLayerSt], memoryFs⟩

/-- Lower-priority layer holding `test.txt` with content `[1]`. -/
def lowLayerSt : MemState := [("test.txt", ([1], mkMeta "test.txt" 1))]

/-- Higher-priority layer holding `test.txt` with content `[2, 2]`. -/
def highLayerSt : MemState := [("test.txt", ([2, 2], mkMeta "test.txt" 2))]

/-- Root state holding `test.txt` with content `[0]`. -/
def rootShadowSt : MemState := [("test.txt", ([0], mkMeta "test.txt" 1))]

/-- Layered filesystem where two layers shadow the root's `test.txt`. -/
def fsTwoShadow : Filesystem MemState :=
  ⟨[memLayer lowLayerSt, memLayer highLayerSt], memoryFs⟩

/-- Layer for the delete scenario: holds `test.txt` with content `[7]`. -/
def delLayerSt : MemState := [("test.txt", ([7], mkMeta "test.txt" 1))]

/-- Root state for the delete scenario: also holds `test.txt`. -/
def rootDelSt : MemState := [("test.txt", ([0], mkMeta "test.txt" 1))]

/-- Layered filesystem where the root and one layer both hold `test.txt`. -/
def fsDelShadow : Filesystem MemState := ⟨[memLayer delLayerSt], memoryFs⟩

/-- Operator whose `stat` always reports an opendal `NotFound`. -/
def opAbsent : OpendalOp :=
  ⟨fun _ => .error ⟨OpendalKind.NotFound, "missing"⟩, fun _ => .ok ()⟩

/-- Root state for the union scenario: holds only `a.txt`. -/
def rootUnionSt : MemState := [("a.txt", ([], mkMeta "a.txt" 0))]

/-- Layer for the union scenario: holds only `b.txt`. -/
def layerUnionSt : MemState := [("b.txt", ([], mkMeta "b.txt" 0))]

/-- Layered filesystem with disjoint root and layer paths. -/
def fsUnion : Filesystem MemState := ⟨[memLayer layerUnionSt], memoryFs⟩

/-- Layer for the put/get scenario: holds only `other.txt`. -/
def otherLayerSt : MemState := [("other.txt", ([9], mkMeta "other.txt" 1))]

/-- Layered filesystem over a memory root with one non-shadowing layer. -/
def fsPutGet : Filesystem MemState := ⟨[memLayer otherLayerSt], memoryFs⟩

/-- FileMeta produced by the witness `put` of `new.txt`. -/
def putMeta : FileMeta := ⟨"new.txt", 0, "rw", "text/plain", 0, 3⟩

/-- Memory-root state after the witness `put` of `new.txt`. -/
def putSt : MemState := [("new.txt", ([1, 2, 3], putMeta))]

/-- Root state for the sorting scenario: three files out of name order. -/
def rootSortSt : MemState :=
  [("zebra.txt", ([], mkMeta "zebra.txt" 0)),
   ("alpha.txt", ([], mkMeta "alpha.txt" 0)),
   ("mango.txt", ([], mkMeta "mango.txt" 0))]

/-- Layered filesystem with no layers over the sorting-scenario root. -/
def fsSort : Filesystem MemState := ⟨[], memoryFs⟩

/-!
Helper lemmas about the precedence scan `firstOk`.
-/

theorem firstOk_all_errors {α : Type} (as : List (Except Error α)) (fb : Except Error α)
    (h : ∀ a ∈ as, a.isOk = false) : firstOk as fb = fb := by
  induction as with
  | nil => rfl
  | cons a rest ih =>
    cases a with
    | ok r =>
      have hh := h _ (List.mem_cons_self _ _)
      simp [Except.isOk, Except.toBool] at hh
    | error e =>
      show firstOk rest fb = fb
      exact ih fun x hx => h x (List.mem_cons_of_mem _ hx)

theorem firstOk_append_errors {α : Type} (as bs : List (Except Error α)) (fb : Except Error α)
    (h : ∀ a ∈ as, a.isOk = false) : firstOk (as ++ bs) fb = firstOk bs fb := by
  induction as with
  | nil => rfl
  | cons a rest ih =>
    cases a with
    | ok r =>
      have hh := h _ (List.mem_cons_self _ _)
      simp [Except.isOk, Except.toBool] at hh
    | error e =>
      show firstOk (rest ++ bs) fb = firstOk bs fb
      exact ih fun x hx => h x (List.mem_cons_of_mem _ hx)

theorem firstOk_layers_all_fail {α : Type} (layers : List ReadOnlyFilesystem)
    (g : ReadOnlyFilesystem → Except Error α) (fb : Except Error α)
    (h : ∀ l ∈ layers, (g l).isOk = false) :
    firstOk (layers.reverse.map g) fb = fb := by
  apply firstOk_all_errors
  intro a ha
  obtain ⟨l, hl, rfl⟩ := List.mem_map.1 ha
  exact h l (List.mem_reverse.1 hl)

theorem firstOk_layers_win {α : Type} (pre post : List ReadOnlyFilesystem)
    (l : ReadOnlyFilesystem) (g : ReadOnlyFilesystem → Except Error α)
    (fb : Except Error α) (r : α) (hl : g l = .ok r)
    (hpost : ∀ l' ∈ post, (g l').isOk = false) :
    firstOk (((pre ++ l :: post).reverse).map g) fb = .ok r := by
  have hrev : (pre ++ l :: post).reverse = post.reverse ++ l :: pre.reverse := by
    simp
  rw [hrev, List.map_append, firstOk_append_errors _ _ _ ?side]
  case side =>
    intro a ha
    obtain ⟨l', hl', rfl⟩ := List.mem_map.1 ha
    exact hpost l' (List.mem_reverse.1 hl')
  rw [List.map_cons, hl]
  rfl


/-- C2: `get` and `meta` consult the layers from last-added to first-added
and return the first layer's successful result; when every layer fails they
return exactly the root's result, so a failing root's error is propagated
unchanged; a layer wins whenever all later-added layers fail on the path. -/
theorem get_meta_layer_precedence {σ : Type} (fs : Filesystem σ) (s : σ)
    (path : String) :
    ((∀ l ∈ fs.layers, (l.get path).isOk = false) →
      fs.get s path = fs.root.get s path) ∧
    (∀ pre l post r, fs.layers = pre ++ l :: post → l.get path = .ok r →
      (∀ l' ∈ post, (l'.get path).isOk = false) → fs.get s path = .ok r) ∧
    ((∀ l ∈ fs.layers, (l.meta path).isOk = false) →
      fs.meta s path = fs.root.meta s path) ∧
    (∀ pre l post m, fs.layers = pre ++ l :: post → l.meta path = .ok m →
      (∀ l' ∈ post, (l'.meta path).isOk = false) → fs.meta s path = .ok m) := by
  refine ⟨?_, ?_, ?_, ?_⟩
  · intro h
    exact firstOk_layers_all_fail fs.layers _ _ h
  · intro pre l post r hl hok hpost
    show firstOk (fs.layers.reverse.map fun l => l.get path) _ = .ok r
    rw [hl]
    exact firstOk_layers_win pre post l _ _ r hok hpost
  · intro h
    exact firstOk_layers_all_fail fs.layers _ _ h
  · intro pre l post m hl hok hpost
    show firstOk (fs.layers.reverse.map fun l => l.meta path) _ = .ok m
    rw [hl]
    exact firstOk_layers_win pre post l _ _ m hok hpost

/-- Witness for C2: with layers L1 (content `[1]`) and L2 (content `[2, 2]`)
both defining `test.txt` over a root that also defines it, `get` returns
L2's content and metadata. -/
theorem get_meta_layer_precedence_witness :
    Filesystem.get fsTwoShadow rootShadowSt "test.txt"
      = .ok ([Except.ok [2, 2]], mkMeta "test.txt" 2) :=
  (get_meta_layer_precedence fsTwoShadow rootShadowSt "test.txt").2.1
    [memLayer lowLayerSt] (memLayer highLayerSt) [] _ rfl (by decide) (by simp)

/-- C4: `put` and `delete` are forwarded verbatim to the root; after a
successful `delete`, a path resolved by a layer is still resolved by `get`
with the same layer entry. -/
theorem put_delete_root_only {σ : Type} (fs : Filesystem σ) :
    (∀ s path data im, fs.put s path data im = fs.root.put s path data im) ∧
    (∀ s path, fs.delete s path = fs.root.delete s path) ∧
    (∀ s s' path pre l post r, fs.layers = pre ++ l :: post →
      l.get path = .ok r → (∀ l' ∈ post, (l'.get path).isOk = false) →
      fs.delete s path = .ok s' →
      fs.get s' path = .ok r ∧ fs.get s path = .ok r) := by
  refine ⟨fun _ _ _ _ => rfl, fun _ _ => rfl, ?_⟩
  intro s s' path pre l post r hl hok hpost _
  constructor
  · show firstOk (fs.layers.reverse.map fun l => l.get path) _ = .ok r
    rw [hl]
    exact firstOk_layers_win pre post l _ _ r hok hpost
  · show firstOk (fs.layers.reverse.map fun l => l.get path) _ = .ok r
    rw [hl]
    exact firstOk_layers_win pre post l _ _ r hok hpost

/-- Witness for C4: the root and a layer both hold `test.txt`; deleting it
succeeds (removing the root's copy) and `get` still returns the layer's
entry afterwards. -/
theorem put_delete_root_only_witness :
    Filesystem.delete fsDelShadow rootDelSt "test.txt" = .ok [] ∧
    Filesystem.get fsDelShadow [] "test.txt"
      = .ok ([Except.ok [7]], mkMeta "test.txt" 1) :=
  ⟨by decide,
   ((put_delete_root_only fsDelShadow).2.2 rootDelSt [] "test.txt"
      [] (memLayer delLayerSt) [] _ rfl (by decide) (by simp) (by decide)).1⟩

/-- C9: a layered filesystem with zero layers behaves exactly like its
root on `get`, `meta`, `put` and `delete`. -/
theorem zero_layers_refines_root {σ : Type} (root : ReadWriteFilesystem σ)
    (s : σ) (path : String) (data : Stream) (im : IncomingFileMeta) :
    Filesystem.get ⟨[], root⟩ s path = root.get s path ∧
    Filesystem.meta ⟨[], root⟩ s path = root.meta s path ∧
    Filesystem.put ⟨[], root⟩ s path data im = root.put s path data im ∧
    Filesystem.delete ⟨[], root⟩ s path = root.delete s path :=
  ⟨rfl, rfl, rfl, rfl⟩

/-- C8: the error-to-status mapping is total, sends `NotFound` to 404,
`PermissionDenied` to 403, and both `Io` and `Other` to 500. -/
theorem error_status_mapping :
    (∀ s, statusCode (Error.NotFound s) = 404) ∧
    (∀ s, statusCode (Error.PermissionDenied s) = 403) ∧
    (∀ e, statusCode (Error.Io e) = 500) ∧
    (∀ s, statusCode (Error.Other s) = 500) ∧
    (∀ err, statusCode err = 404 ∨ statusCode err = 403 ∨ statusCode err = 500) := by
  refine ⟨fun _ => rfl, fun _ => rfl, fun _ => rfl, fun _ => rfl, fun err => ?_⟩
  cases err <;> simp [statusCode]

/-- C6: deleting an absent path fails with `NotFound` — in the opendal
adapter because `delete` stats first and propagates the stat's `NotFound`,
and in `MemoryFs` because `remove` of an absent key reports `NotFound`. -/
theorem delete_absent_is_not_found :
    (∀ (op : OpendalOp) (path : String) (e : OpendalError),
      op.stat path = .error e → e.kind = OpendalKind.NotFound →
      opendalDelete op path = .error (Error.NotFound e.msg)) ∧
    (∀ (files : MemState) (path : String), memFind files path = none →
      MemoryFs.delete files path = .error (Error.NotFound path)) := by
  constructor
  · intro op path e hstat hkind
    simp [opendalDelete, hstat, opendalInto, hkind]
  · intro files path h
    simp [MemoryFs.delete, h]

/-- Witness for C6: an operator whose `stat` reports `NotFound`, and an
empty memory filesystem; both deletes fail with `NotFound`. -/
theorem delete_absent_is_not_found_witness :
    opendalDelete opAbsent "ghost.md" = .error (Error.NotFound "missing") ∧
    MemoryFs.delete [] "ghost.md" = .error (Error.NotFound "ghost.md") :=
  ⟨delete_absent_is_not_found.1 opAbsent "ghost.md"
      ⟨OpendalKind.NotFound, "missing"⟩ rfl rfl,
   delete_absent_is_not_found.2 [] "ghost.md" rfl⟩

/-- C1 is refuted by the code: with two layers both holding `a.txt`,
`list` reports the first-added layer's `FileMeta` (size 1) although the
last-added layer has the higher priority, whose entry `get` and `meta` do
return (size 2). -/
theorem list_collision_reports_first_added_layer :
    Filesystem.list fsLayerPair [] = .ok [fmSizeOne] ∧
    Filesystem.get fsLayerPair [] "a.txt" = .ok ([Except.ok [0, 0]], fmSizeTwo) ∧
    Filesystem.meta fsLayerPair [] "a.txt" = .ok fmSizeTwo ∧
    fmSizeOne ≠ fmSizeTwo := by
  refine ⟨by decide, by decide, by decide, by decide⟩


/-- Unfolding equation for `charsLe` on two non-empty lists. -/
theorem charsLe_cons (x y : Char) (xs ys : List Char) :
    charsLe (x :: xs) (y :: ys) =
      if x.toNat < y.toNat then true
      else if y.toNat < x.toNat then false
      else charsLe xs ys := rfl

/-- Totality of the byte-wise order: two character lists always compare. -/
theorem charsLe_total (xs : List Char) :
    ∀ ys, charsLe xs ys = true ∨ charsLe ys xs = true := by
  induction xs with
  | nil => intro ys; left; rfl
  | cons x xs ih =>
    intro ys
    cases ys with
    | nil => right; rfl
    | cons y ys =>
      rw [charsLe_cons, charsLe_cons]
      by_cases h1 : x.toNat < y.toNat
      · left; rw [if_pos h1]
      · by_cases h2 : y.toNat < x.toNat
        · right; rw [if_pos h2]
        · rw [if_neg h1, if_neg h2, if_neg h2, if_neg h1]
          exact ih ys

/-- Transitivity of the byte-wise order. -/
theorem charsLe_trans (xs : List Char) :
    ∀ ys zs, charsLe xs ys = true → charsLe ys zs = true →
      charsLe xs zs = true := by
  induction xs with
  | nil => intro ys zs _ _; rfl
  | cons x xs ih =>
    intro ys zs h1 h2
    cases ys with
    | nil => simp [charsLe] at h1
    | cons y ys =>
      cases zs with
      | nil => simp [charsLe] at h2
      | cons z zs =>
        rw [charsLe_cons] at h1 h2 ⊢
        by_cases hxy : x.toNat < y.toNat
        · by_cases hyz : y.toNat < z.toNat
          · rw [if_pos (Nat.lt_trans hxy hyz)]
          · by_cases hzy : z.toNat < y.toNat
            · rw [if_neg hyz, if_pos hzy] at h2
              simp at h2
            · rw [if_pos (show x.toNat < z.toNat by omega)]
        · by_cases hyx : y.toNat < x.toNat
          · rw [if_neg hxy, if_pos hyx] at h1
            simp at h1
          · rw [if_neg hxy, if_neg hyx] at h1
            by_cases hyz : y.toNat < z.toNat
            · rw [if_pos (show x.toNat < z.toNat by omega)]
            · by_cases hzy : z.toNat < y.toNat
              · rw [if_neg hyz, if_pos hzy] at h2
                simp at h2
              · rw [if_neg hyz, if_neg hzy] at h2
                rw [if_neg (show ¬ x.toNat < z.toNat by omega),
                  if_neg (show ¬ z.toNat < x.toNat by omega)]
                exact ih ys zs h1 h2

instance nameLeTotal : IsTotal FileMeta nameLe :=
  ⟨fun a b => charsLe_total a.name.data b.name.data⟩

instance nameLeTrans : IsTrans FileMeta nameLe :=
  ⟨fun a b c hab hbc => charsLe_trans a.name.data b.name.data c.name.data hab hbc⟩

/-- Sorting keeps exactly the merged entries (it is a permutation). -/
theorem sortByName_perm (l : List FileMeta) : (sortByName l).Perm l :=
  List.perm_insertionSort nameLe l

/-- Sorting orders the entries by `nameLe`. -/
theorem sortByName_sorted (l : List FileMeta) :
    List.Pairwise nameLe (sortByName l) :=
  List.sorted_insertionSort nameLe l


/-- The names in the map after an insert: unchanged when the name was
present (in-place replacement), appended otherwise. -/
theorem names_hmInsert (m : List FileMeta) (f : FileMeta) :
    (hmInsert m f).map FileMeta.name =
      if m.any (fun g => g.name = f.name) then m.map FileMeta.name
      else m.map FileMeta.name ++ [f.name] := by
  unfold hmInsert
  split
  · rw [List.map_map]
    apply List.map_congr_left
    intro g _
    by_cases hg : g.name = f.name
    · simp [hg]
    · simp [hg]
  · simp

/-- Membership in the map's names after an insert. -/
theorem mem_names_hmInsert (m : List FileMeta) (f : FileMeta) (n : String) :
    n ∈ (hmInsert m f).map FileMeta.name ↔
      n ∈ m.map FileMeta.name ∨ n = f.name := by
  rw [names_hmInsert]
  split
  · rename_i hany
    simp only [List.any_eq_true, decide_eq_true_eq] at hany
    obtain ⟨g, hg, hgname⟩ := hany
    constructor
    · exact Or.inl
    · rintro (h | rfl)
      · exact h
      · exact List.mem_map.2 ⟨g, hg, hgname⟩
  · simp

/-- Distinctness of the map's names is preserved by an insert. -/
theorem nodup_names_hmInsert (m : List FileMeta) (f : FileMeta)
    (h : (m.map FileMeta.name).Nodup) :
    ((hmInsert m f).map FileMeta.name).Nodup := by
  rw [names_hmInsert]
  split
  · exact h
  · rename_i hany
    have hnotin : f.name ∉ m.map FileMeta.name := by
      simp only [Bool.not_eq_true, List.any_eq_false, decide_eq_true_eq] at hany
      simp only [List.mem_map, not_exists]
      rintro g ⟨hg, hgname⟩
      exact hany g hg hgname
    simp [List.nodup_append, hnotin, h]

/-- Folding a file list into the map preserves name distinctness. -/
theorem nodup_names_foldl_hmInsert (files : List FileMeta) :
    ∀ m : List FileMeta, (m.map FileMeta.name).Nodup →
      ((files.foldl hmInsert m).map FileMeta.name).Nodup := by
  induction files with
  | nil => intro m h; exact h
  | cons f fs ih => intro m h; exact ih _ (nodup_names_hmInsert m f h)

/-- Membership in the map's names after folding a file list in. -/
theorem mem_names_foldl_hmInsert (files : List FileMeta) (n : String) :
    ∀ m : List FileMeta,
      n ∈ (files.foldl hmInsert m).map FileMeta.name ↔
        n ∈ m.map FileMeta.name ∨ n ∈ files.map FileMeta.name := by
  induction files with
  | nil => intro m; simp
  | cons f fs ih =>
    intro m
    rw [List.foldl_cons, ih, mem_names_hmInsert]
    simp only [List.map_cons, List.mem_cons]
    tauto

/-- `insertAll` preserves name distinctness. -/
theorem nodup_names_insertAll (m : List FileMeta)
    (r : Except Error (List FileMeta)) (h : (m.map FileMeta.name).Nodup) :
    ((insertAll m r).map FileMeta.name).Nodup := by
  cases r with
  | ok files => exact nodup_names_foldl_hmInsert files m h
  | error e => exact h

/-- Membership in the map's names after `insertAll`. -/
theorem mem_names_insertAll (m : List FileMeta)
    (r : Except Error (List FileMeta)) (n : String) :
    n ∈ (insertAll m r).map FileMeta.name ↔
      n ∈ m.map FileMeta.name ∨
        ∃ files, r = .ok files ∧ n ∈ files.map FileMeta.name := by
  cases r with
  | ok files =>
    rw [show insertAll m (.ok files) = files.foldl hmInsert m from rfl,
      mem_names_foldl_hmInsert]
    simp
  | error e => simp [insertAll]

/-- Folding a list of source results preserves name distinctness. -/
theorem nodup_names_foldl_insertAll (rs : List (Except Error (List FileMeta))) :
    ∀ m : List FileMeta, (m.map FileMeta.name).Nodup →
      ((rs.foldl insertAll m).map FileMeta.name).Nodup := by
  induction rs with
  | nil => intro m h; exact h
  | cons r rest ih => intro m h; exact ih _ (nodup_names_insertAll m r h)

/-- Membership in the map's names after folding in a list of source
results: exactly the names of the successful sources. -/
theorem mem_names_foldl_insertAll (rs : List (Except Error (List FileMeta)))
    (n : String) :
    ∀ m : List FileMeta,
      n ∈ (rs.foldl insertAll m).map FileMeta.name ↔
        n ∈ m.map FileMeta.name ∨
          ∃ r ∈ rs, ∃ files, r = .ok files ∧ n ∈ files.map FileMeta.name := by
  induction rs with
  | nil => intro m; simp
  | cons r rest ih =>
    intro m
    rw [List.foldl_cons, ih, mem_names_insertAll]
    simp only [List.mem_cons]
    constructor
    · rintro ((h | h) | h)
      · exact Or.inl h
      · obtain ⟨files, hr, hn⟩ := h
        exact Or.inr ⟨r, Or.inl rfl, files, hr, hn⟩
      · obtain ⟨r', hr', files, hfe, hn⟩ := h
        exact Or.inr ⟨r', Or.inr hr', files, hfe, hn⟩
    · rintro (h | h)
      · exact Or.inl (Or.inl h)
      · obtain ⟨r', hr', files, hfe, hn⟩ := h
        cases hr' with
        | inl he => exact Or.inl (Or.inr ⟨files, he ▸ hfe, hn⟩)
        | inr he => exact Or.inr ⟨r', he, files, hfe, hn⟩

/-- The merged map never holds two entries with the same name. -/
theorem nodup_names_mergeLists (rootR : Except Error (List FileMeta))
    (layerRs : List (Except Error (List FileMeta))) :
    ((mergeLists rootR layerRs).map FileMeta.name).Nodup :=
  nodup_names_foldl_insertAll layerRs.reverse (insertAll [] rootR)
    (nodup_names_insertAll [] rootR (by simp))

/-- The merged map holds exactly the names of the successful sources. -/
theorem mem_names_mergeLists (rootR : Except Error (List FileMeta))
    (layerRs : List (Except Error (List FileMeta))) (n : String) :
    n ∈ (mergeLists rootR layerRs).map FileMeta.name ↔
      ((∃ files, rootR = .ok files ∧ n ∈ files.map FileMeta.name) ∨
       ∃ r ∈ layerRs, ∃ files, r = .ok files ∧ n ∈ files.map FileMeta.name) := by
  unfold mergeLists
  rw [mem_names_foldl_insertAll, mem_names_insertAll]
  simp [List.mem_reverse]


/-- A failing source contributes to the map exactly what an empty
successful source does. -/
theorem insertAll_okOrEmpty (m : List FileMeta)
    (r : Except Error (List FileMeta)) :
    insertAll m (okOrEmpty r) = insertAll m r := by
  cases r with
  | ok files => rfl
  | error e => rfl

/-- Folding scrubbed source results gives the same map as folding the raw
ones. -/
theorem foldl_insertAll_okOrEmpty (rs : List (Except Error (List FileMeta))) :
    ∀ m : List FileMeta,
      (rs.map okOrEmpty).foldl insertAll m = rs.foldl insertAll m := by
  induction rs with
  | nil => intro m; rfl
  | cons r rest ih =>
    intro m
    rw [List.map_cons, List.foldl_cons, List.foldl_cons, insertAll_okOrEmpty, ih]

/-- The merge is unchanged when every failing source is replaced by an
empty successful one. -/
theorem mergeLists_okOrEmpty (rootR : Except Error (List FileMeta))
    (layerRs : List (Except Error (List FileMeta))) :
    mergeLists (okOrEmpty rootR) (layerRs.map okOrEmpty) =
      mergeLists rootR layerRs := by
  unfold mergeLists
  rw [← List.map_reverse, foldl_insertAll_okOrEmpty, insertAll_okOrEmpty]

/-- C3: the overlay `list` always succeeds, and its result is exactly the
one obtained when every failing source (root or layer) is replaced by an
empty successful source — a failing source contributes no entries and its
error is never propagated. -/
theorem list_tolerates_failing_sources {σ : Type} (fs : Filesystem σ) (s : σ) :
    (fs.list s).isOk = true ∧
    fs.list s = .ok (sortByName (mergeLists (okOrEmpty (fs.root.list s))
      ((fs.layers.map (fun l => l.list)).map okOrEmpty))) := by
  refine ⟨rfl, ?_⟩
  show Except.ok _ = Except.ok _
  rw [mergeLists_okOrEmpty]

/-- C5: the overlay `list` never reports two entries with the same name,
and (when the root and every layer list successfully) the reported names
are exactly the union of the names across the root and all layers. -/
theorem list_unique_names_and_union {σ : Type} (fs : Filesystem σ) (s : σ) :
    (∃ files, fs.list s = .ok files ∧ (files.map FileMeta.name).Nodup) ∧
    (∀ files rfiles, fs.list s = .ok files → fs.root.list s = .ok rfiles →
      (∀ l ∈ fs.layers, (l.list).isOk = true) →
      ∀ n, n ∈ files.map FileMeta.name ↔
        (n ∈ rfiles.map FileMeta.name ∨
          ∃ l ∈ fs.layers, ∃ lfiles, l.list = .ok lfiles ∧
            n ∈ lfiles.map FileMeta.name)) := by
  constructor
  · refine ⟨_, rfl, ?_⟩
    exact ((sortByName_perm _).map FileMeta.name).nodup_iff.2
      (nodup_names_mergeLists _ _)
  · intro files rfiles hlist hroot _ n
    have hf : sortByName (mergeLists (fs.root.list s)
        (fs.layers.map fun l => l.list)) = files := Except.ok.inj hlist
    subst hf
    rw [((sortByName_perm _).map FileMeta.name).mem_iff,
      mem_names_mergeLists, hroot]
    constructor
    · rintro (⟨fls, hfe, hn⟩ | ⟨r, hr, fls, hfe, hn⟩)
      · cases Except.ok.inj hfe
        exact Or.inl hn
      · obtain ⟨l, hl, rfl⟩ := List.mem_map.1 hr
        exact Or.inr ⟨l, hl, fls, hfe, hn⟩
    · rintro (h | ⟨l, hl, fls, hfe, hn⟩)
      · exact Or.inl ⟨rfiles, rfl, h⟩
      · exact Or.inr ⟨l.list, List.mem_map.2 ⟨l, hl, rfl⟩, fls, hfe, hn⟩

/-- Witness for C5: root `{a.txt}` and layer `{b.txt}` with no collision;
`b.txt` is reported exactly because the layer holds it. -/
theorem list_unique_names_and_union_witness :
    "b.txt" ∈ ([mkMeta "a.txt" 0, mkMeta "b.txt" 0].map FileMeta.name) ↔
      ("b.txt" ∈ [mkMeta "a.txt" 0].map FileMeta.name ∨
        ∃ l ∈ fsUnion.layers, ∃ lfiles, l.list = .ok lfiles ∧
          "b.txt" ∈ lfiles.map FileMeta.name) :=
  (list_unique_names_and_union fsUnion rootUnionSt).2
    [mkMeta "a.txt" 0, mkMeta "b.txt" 0] [mkMeta "a.txt" 0]
    (by decide) (by decide) (by decide) "b.txt"

/-- C10: the silverbullet overlay `list` returns its entries in strictly
ascending name order (byte-wise `≤` together with distinctness). -/
theorem list_sorted_strictly_by_name {σ : Type} (fs : Filesystem σ) (s : σ)
    (files : List FileMeta) (h : fs.list s = .ok files) :
    files.Pairwise (fun a b => strLe a.name b.name = true ∧ a.name ≠ b.name) := by
  have hf : sortByName (mergeLists (fs.root.list s)
      (fs.layers.map fun l => l.list)) = files := Except.ok.inj h
  subst hf
  have hsorted := sortByName_sorted (mergeLists (fs.root.list s)
    (fs.layers.map fun l => l.list))
  have hnodup := ((sortByName_perm (mergeLists (fs.root.list s)
      (fs.layers.map fun l => l.list))).map FileMeta.name).nodup_iff.2
    (nodup_names_mergeLists _ _)
  have hne := List.pairwise_map.1 hnodup
  exact hsorted.and hne

/-- Witness for C10: listing a root holding `zebra.txt`, `alpha.txt`,
`mango.txt` yields the three entries in strictly ascending name order. -/
theorem list_sorted_strictly_by_name_witness :
    List.Pairwise (fun a b => strLe a.name b.name = true ∧ a.name ≠ b.name)
      [mkMeta "alpha.txt" 0, mkMeta "mango.txt" 0, mkMeta "zebra.txt" 0] :=
  list_sorted_strictly_by_name fsSort rootSortSt
    [mkMeta "alpha.txt" 0, mkMeta "mango.txt" 0, mkMeta "zebra.txt" 0]
    (by decide)


/-- A successful `try_fold` of a stream yields the accumulator followed by
all the stream's bytes (and implies no chunk failed). -/
theorem tryFoldBytes_ok (data : Stream) :
    ∀ acc bs, tryFoldBytes acc data = .ok bs → bs = acc ++ streamBytes data := by
  induction data with
  | nil =>
    intro acc bs h
    cases Except.ok.inj h
    simp [streamBytes]
  | cons c rest ih =>
    intro acc bs h
    cases c with
    | ok chunk =>
      have hb := ih (acc ++ chunk) bs h
      rw [hb]
      simp [streamBytes, List.append_assoc]
    | error e => exact Except.noConfusion h

/-- Finding stored bytes after appending a fresh key at the end. -/
theorem find_append_self (files : MemState) (path : String)
    (v : Bytes × FileMeta) :
    files.any (fun kv => kv.1 = path) = false →
    (files ++ [(path, v)]).find? (fun kv => kv.1 = path) = some (path, v) := by
  induction files with
  | nil =>
    intro _
    rw [List.nil_append, List.find?_cons_of_pos _ (by simp)]
  | cons kv rest ih =>
    intro h
    simp only [List.any_cons, Bool.or_eq_false_iff] at h
    rw [List.cons_append, List.find?_cons_of_neg _ (by simp [h.1]), ih h.2]

/-- Finding stored bytes after an in-place replacement of the key. -/
theorem find_map_replace (files : MemState) (path : String)
    (v : Bytes × FileMeta) :
    files.any (fun kv => kv.1 = path) = true →
    (files.map (fun kv => if kv.1 = path then (path, v) else kv)).find?
      (fun kv => kv.1 = path) = some (path, v) := by
  induction files with
  | nil => intro h; simp at h
  | cons kv rest ih =>
    intro h
    by_cases hk : kv.1 = path
    · rw [List.map_cons, if_pos hk, List.find?_cons_of_pos _ (by simp)]
    · have h' : rest.any (fun kv => kv.1 = path) = true := by
        simp only [List.any_cons, hk] at h
        simpa using h
      rw [List.map_cons, if_neg hk,
        List.find?_cons_of_neg _ (by simp [hk]), ih h']

/-- A `put` into the memory map is found again by `get`'s lookup. -/
theorem memFind_memInsert (files : MemState) (path : String)
    (v : Bytes × FileMeta) :
    memFind (memInsert files path v) path = some v := by
  unfold memFind memInsert
  split
  · rename_i h
    rw [find_map_replace files path v h]
    rfl
  · rename_i h
    rw [find_append_self files path v (Bool.eq_false_iff.2 h)]
    rfl

/-- The in-repo `MemoryFs` satisfies the writable contract. -/
theorem memoryFs_put_get : RootPutGet memoryFs := by
  intro s path data im fm s' hput
  replace hput : MemoryFs.put s path data im = .ok (fm, s') := hput
  unfold MemoryFs.put at hput
  cases heq : tryFoldBytes [] data with
  | error e =>
    rw [heq] at hput
    exact Except.noConfusion hput
  | ok bytes =>
    rw [heq] at hput
    simp only [Except.ok.injEq, Prod.mk.injEq] at hput
    obtain ⟨hfm, hs'⟩ := hput
    have hb : bytes = streamBytes data := by
      simpa using tryFoldBytes_ok data [] bytes heq
    refine ⟨[Except.ok bytes], fm, ?_, ?_, ?_⟩
    · show MemoryFs.get s' path = _
      rw [← hs']
      unfold MemoryFs.get
      rw [memFind_memInsert]
      rw [← hfm]
    · simp [streamBytes, hb]
    · rw [← hfm, ← hb]

/-- C7: over any root satisfying the writable contract, a successful `put`
at a path no layer resolves, followed by `get`, yields a stream carrying
exactly the written bytes and a `FileMeta` whose size is their length. -/
theorem put_then_get_roundtrip {σ : Type} (fs : Filesystem σ) (s : σ)
    (path : String) (data : Stream) (im : IncomingFileMeta) (fm : FileMeta)
    (s' : σ) (hroot : RootPutGet fs.root)
    (hlayers : ∀ l ∈ fs.layers, (l.get path).isOk = false)
    (hput : fs.put s path data im = .ok (fm, s')) :
    ∃ str fm2, fs.get s' path = .ok (str, fm2) ∧
      streamBytes str = streamBytes data ∧
      fm2.size = (streamBytes data).length := by
  obtain ⟨str, fm2, hget, hbytes, hsize⟩ := hroot s path data im fm s' hput
  refine ⟨str, fm2, ?_, hbytes, hsize⟩
  show firstOk (fs.layers.reverse.map fun l => l.get path)
    (fs.root.get s' path) = _
  rw [firstOk_layers_all_fail fs.layers _ _ hlayers, hget]


/-- Witness for C7: writing `[1, 2, 3]` to `new.txt` over the memory root
(one layer present, not holding the path) and reading it back. -/
theorem put_then_get_roundtrip_witness :
    Filesystem.put fsPutGet [] "new.txt" [Except.ok [1, 2, 3]]
      IncomingFileMeta.default = .ok (putMeta, putSt) ∧
    ∃ str fm2, Filesystem.get fsPutGet putSt "new.txt" = .ok (str, fm2) ∧
      streamBytes str = streamBytes [Except.ok [1, 2, 3]] ∧
      fm2.size = (streamBytes [Except.ok [1, 2, 3]]).length :=
  ⟨by decide,
   put_then_get_roundtrip fsPutGet [] "new.txt" [Except.ok [1, 2, 3]]
     IncomingFileMeta.default putMeta putSt memoryFs_put_get
     (by decide) (by decide)⟩


end SB
